import Mathlib

/-!
Shallow embedding of the argon3 key-derivation engine (argon3.go) and proofs
about its specification claims.

Machine integers are modelled as `Nat` with explicit reduction modulo `2^32`
(`uint32`) or `2^64` (`uint64`) wherever the Go code performs machine
arithmetic that could wrap.  The extendable-output hash `H` (blake3) is an
external collaborator of the engine and is modelled as a byte-stream
parameter `Hstream : List Nat → Nat → Nat` giving the `i`-th output byte of
`H` on an input byte sequence.  The block-compression routine
`processBlock`/`processBlockXOR` (its round function is not part of the
examined source) is modelled via an abstract compressor
`G : Blk → Blk → Blk`, with `processBlockXOR out in1 in2 = out ^= G in1 in2`
and `processBlock out in1 in2 = out := G in1 in2`.
-/

namespace Argon3

/-- `2^32`, the modulus of Go `uint32` arithmetic. -/
def W32 : Nat := 4294967296

/-- `2^64`, the modulus of Go `uint64` arithmetic. -/
def W64 : Nat := 18446744073709551616

/-- Go `uint32` addition. -/
def add32 (a b : Nat) : Nat := (a + b) % W32

/-- Go `uint32` multiplication. -/
def mul32 (a b : Nat) : Nat := (a * b) % W32

/-- Go `uint32` decrement (`x - 1` with wraparound). -/
def dec32 (a : Nat) : Nat := (a + (W32 - 1)) % W32

/-- Go `uint64` addition. -/
def add64 (a b : Nat) : Nat := (a + b) % W64

/-- Go `uint64` multiplication. -/
def mul64 (a b : Nat) : Nat := (a * b) % W64

/-- Go `uint64` subtraction `a - b` with wraparound (for `b < 2^64`). -/
def sub64 (a b : Nat) : Nat := (a + (W64 - b % W64)) % W64

/-- Constant from argon3.go: `blockLength = 128`. -/
def blockLength : Nat := 128

/-- Constant from argon3.go: `syncPoints = 4`. -/
def syncPoints : Nat := 4

/-- Constant from argon3.go: `Version = 0x13`. -/
def Version : Nat := 19

/-- Mode constant `argon3d = iota = 0`. -/
def argon3d : Nat := 0

/-- Mode constant `argon3i = 1`. -/
def argon3i : Nat := 1

/-- Mode constant `argon3id = 2`. -/
def argon3id : Nat := 2

/-- The memory normalization performed by `deriveKey` (argon3.go lines
122-125): `memory = memory / (syncPoints*threads) * (syncPoints*threads)`,
raised to `2*syncPoints*threads` when smaller.  All quantities fit in
`uint32` (`threads ≤ 255` as a Go `uint8`), so plain `Nat` arithmetic agrees
with the Go `uint32` arithmetic here. -/
def effectiveMemory (memory threads : Nat) : Nat :=
  let m := memory / (syncPoints * threads) * (syncPoints * threads)
  if m < 2 * syncPoints * threads then 2 * syncPoints * threads else m

/-- The reference-lane computation of `indexAlpha` (argon3.go lines 273-276):
`refLane := uint32(rand>>32) % threads`, overwritten with the current lane
during pass 0 slice 0. -/
def alphaRefLane (rand threads n slice lane : Nat) : Nat :=
  if n = 0 ∧ slice = 0 then lane else rand / W32 % W32 % threads

/-- The candidate-window size `m` of `indexAlpha` (argon3.go lines 277-289),
written in the source's override style: start from `3*segments`, add `index`
when the lane is the reference lane, replace wholesale for pass 0, and
finally decrement for the first position of a segment or a same-lane
reference.  All arithmetic is `uint32`. -/
def alphaM (segments n slice lane refLane index : Nat) : Nat :=
  let m := mul32 3 segments
  let m := if lane = refLane then add32 m index else m
  let m :=
    if n = 0 then
      (let m0 := mul32 slice segments
       if slice = 0 ∨ lane = refLane then add32 m0 index else m0)
    else m
  if index = 0 ∨ lane = refLane then dec32 m else m

/-- The window start `s` of `indexAlpha`: `((slice+1) % syncPoints)*segments`,
zeroed during pass 0. -/
def alphaS (segments n slice : Nat) : Nat :=
  if n = 0 then 0 else mul32 ((slice + 1) % syncPoints) segments

/-- The mapping of the randomness into the window (argon3.go lines 294-296):
`p := rand & 0xFFFFFFFF; p = (p*p) >> 32; p = (p*m) >> 32`, in `uint64`
arithmetic (`& 0xFFFFFFFF` is reduction mod `2^32`, `>> 32` is division by
`2^32`). -/
def phiP (rand m : Nat) : Nat :=
  let p := rand % W32
  let p := mul64 p p / W32
  mul64 p m / W32

/-- `phi` (argon3.go line 297):
`lane*lanes + uint32((s+m-(p+1)) % uint64(lanes))`. -/
def phi (rand m s lane lanes : Nat) : Nat :=
  add32 (mul32 lane lanes) (sub64 (add64 s m) (add64 (phiP rand m) 1) % lanes % W32)

/-- `indexAlpha` (argon3.go lines 272-291), assembled from the pieces above. -/
def indexAlpha (rand lanes segments threads n slice lane index : Nat) : Nat :=
  let refLane := alphaRefLane rand threads n slice lane
  phi rand (alphaM segments n slice lane refLane index) (alphaS segments n slice)
    refLane lanes

/-- The address computation exactly as claim C3 words it: a second definition
following the claim's case structure, for comparison with the source
embedding `indexAlpha`. -/
def indexAlphaClaim (rand lanes segments threads n slice lane index : Nat) : Nat :=
  let refLane := if n = 0 ∧ slice = 0 then lane else rand / W32 % threads
  let m :=
    if n = 0 then
      (if slice = 0 ∨ refLane = lane then add32 (mul32 slice segments) index
       else mul32 slice segments)
    else
      (if refLane = lane then add32 (mul32 3 segments) index
       else mul32 3 segments)
  let s := if n = 0 then 0 else mul32 ((slice + 1) % 4) segments
  let m := if index = 0 ∨ refLane = lane then dec32 m else m
  let p := rand % W32
  let p := mul64 p p / W32
  let p := mul64 p m / W32
  add32 (mul32 refLane lanes) (sub64 (add64 s m) (add64 p 1) % lanes % W32)

/-- `binary.LittleEndian.PutUint32`: the four little-endian bytes of the low
32 bits of `n`. -/
def le32 (n : Nat) : List Nat :=
  [n % 256, n / 256 % 256, n / 65536 % 256, n / 16777216 % 256]

/-- The byte stream `initHash` (argon3.go lines 138-164) writes into the
extendable-output hash: the 24-byte parameter block
(threads, keyLen, memory, time, version, mode as little-endian `uint32`s)
followed, for each of password, salt, key (secret) and associated data, by a
4-byte little-endian length prefix and the raw bytes.  `deriveKey` calls
`initHash` with the memory value as requested by the caller, before the
normalization of lines 122-125. -/
def initHashInput (password salt key data : List Nat)
    (time memory threads keyLen mode : Nat) : List Nat :=
  le32 threads ++ le32 keyLen ++ le32 memory ++ le32 time ++
    le32 Version ++ le32 mode ++
  le32 password.length ++ password ++
  le32 salt.length ++ salt ++
  le32 key.length ++ key ++
  le32 data.length ++ data

/-- `initHash` (argon3.go lines 138-169): the 72-byte seed state.  Its first
64 bytes are the extendable output of `H` on `initHashInput`
(`b3.Digest().Read(h0[:64])`); the trailing 8 scratch bytes are still zero
when `initHash` returns. -/
def initHash (Hstream : List Nat → Nat → Nat) (password salt key data : List Nat)
    (time memory threads keyLen mode : Nat) : List Nat :=
  (List.range 64).map
      (Hstream (initHashInput password salt key data time memory threads keyLen mode)) ++
    List.replicate 8 0

/-- The stream claim C1 describes: identical to `initHashInput` except that
the third field of the parameter block is the EFFECTIVE (normalized)
memory.  Second definition, written from the claim's words, for comparison
with the source embedding. -/
def initHashInputC1 (password salt key data : List Nat)
    (time memory threads keyLen mode : Nat) : List Nat :=
  le32 threads ++ le32 keyLen ++ le32 (effectiveMemory memory threads) ++
    le32 time ++ le32 Version ++ le32 mode ++
  le32 password.length ++ password ++
  le32 salt.length ++ salt ++
  le32 key.length ++ key ++
  le32 data.length ++ data

/-- A memory block (argon3.go line 136): 128 `uint64` words. -/
abbrev Blk := List Nat

/-- The all-zero block. -/
def zeroBlk : Blk := List.replicate blockLength 0

/-- Word-wise XOR of two blocks. -/
def blkXor (x y : Blk) : Blk := List.zipWith Nat.xor x y

/-- The counter-input block of data-independent addressing (argon3.go lines
199-206 and the `in[6]++` of lines 212 and 227): words 0-5 hold pass, lane,
slice, memory, time and mode, word 6 the regeneration counter. -/
def inBlk (n lane slice memory time mode cnt : Nat) : Blk :=
  [n, lane, slice, memory, time, mode, cnt] ++ List.replicate 121 0

/-- Address-block regeneration (argon3.go lines 213-214 and 228-229):
`processBlock(&addresses, &in, &zero)` then
`processBlock(&addresses, &addresses, &zero)`, i.e.
`addresses = G (G in zero) zero` for the compressor `G`. -/
def addrBlock (G : Blk → Blk → Blk) (n lane slice memory time mode cnt : Nat) : Blk :=
  G (G (inBlk n lane slice memory time mode cnt) zeroBlk) zeroBlk

/-- The addressing-strategy selector (argon3.go lines 199 and 225):
`mode == argon3i || (mode == argon3id && n == 0 && slice < syncPoints/2)`. -/
def usesAddressBlock (mode n slice : Nat) : Prop :=
  mode = argon3i ∨ (mode = argon3id ∧ n = 0 ∧ slice < syncPoints / 2)

instance (mode n slice : Nat) : Decidable (usesAddressBlock mode n slice) := by
  unfold usesAddressBlock
  infer_instance

/-- The previous-block offset (argon3.go lines 221-224): `prev := offset - 1`
in `uint32` arithmetic, plus `lanes` (the last block of the lane) at the
lane's first position (`index == 0 && slice == 0`). -/
def prevOffset (offset slice index lanes : Nat) : Nat :=
  if index = 0 ∧ slice = 0 then add32 (dec32 offset) lanes else dec32 offset

/-- The 64-bit addressing randomness for one position (argon3.go lines
225-234): the next word of the address block under data-independent
addressing, word 0 of the previous block otherwise. -/
def stepRandom (mode n slice index prev : Nat) (addresses : Blk) (B : List Blk) : Nat :=
  if usesAddressBlock mode n slice then addresses.getD (index % blockLength) 0
  else (B.getD prev zeroBlk).headD 0

/-- `processBlockXOR(&B[offset], ...)`: XOR the compressed value into the
destination block — the source's unconditional write operation. -/
def wrXor (B : List Blk) (offset : Nat) (v : Blk) : List Blk :=
  B.set offset (blkXor (B.getD offset zeroBlk) v)

/-- Overwrite write operation: the destination block is replaced by the
compressed value (the specification's pass-0 discipline). -/
def wrOver (B : List Blk) (offset : Nat) (v : Blk) : List Blk :=
  B.set offset v

/-- The per-position loop of `processSegment` (argon3.go lines 220-238),
parameterized by the write operation `wr` (the source uses `wrXor`
unconditionally).  The first `Nat` argument counts the remaining positions
(`segments - index`); `index`, `offset`, the address-block counter `cnt`
and the current address block follow, exactly as maintained by the Go
loop. -/
def fillSeg (G : Blk → Blk → Blk) (wr : List Blk → Nat → Blk → List Blk)
    (mode time memory threads lanes segments n slice lane : Nat) :
    Nat → Nat → Nat → Nat → Blk → List Blk → List Blk
  | 0, _, _, _, _, B => B
  | rem + 1, index, offset, cnt, addresses, B =>
    let prev := prevOffset offset slice index lanes
    let regen := usesAddressBlock mode n slice ∧ index % blockLength = 0
    let cnt2 := if regen then cnt + 1 else cnt
    let addresses2 :=
      if regen then addrBlock G n lane slice memory time mode cnt2 else addresses
    let random := stepRandom mode n slice index prev addresses2 B
    let newOffset := indexAlpha random lanes segments threads n slice lane index
    fillSeg G wr mode time memory threads lanes segments n slice lane rem
      (index + 1) (add32 offset 1) cnt2 addresses2
      (wr B offset (G (B.getD prev zeroBlk) (B.getD newOffset zeroBlk)))

/-- The first in-segment index processed (argon3.go lines 208-211): pass 0
slice 0 starts at index 2, because the first two blocks of each lane were
already produced by `initBlocks`. -/
def startIdx (n slice : Nat) : Nat :=
  if n = 0 ∧ slice = 0 then 2 else 0

/-- `processSegment` (argon3.go lines 197-240) for one `(n, slice, lane)`
triple: pass 0 slice 0 starts at in-segment index 2 (the first two blocks
of each lane were produced by `initBlocks`) and pre-generates the first
address block when the mode consults one. -/
def processSegment (G : Blk → Blk → Blk) (wr : List Blk → Nat → Blk → List Blk)
    (mode time memory threads lanes segments n slice lane : Nat)
    (B : List Blk) : List Blk :=
  let index := startIdx n slice
  let cnt :=
    if n = 0 ∧ slice = 0 ∧ (mode = argon3i ∨ mode = argon3id) then 1 else 0
  let addresses :=
    if n = 0 ∧ slice = 0 ∧ (mode = argon3i ∨ mode = argon3id) then
      addrBlock G n lane slice memory time mode 1
    else zeroBlk
  let offset := add32 (add32 (mul32 lane lanes) (mul32 slice segments)) index
  fillSeg G wr mode time memory threads lanes segments n slice lane
    (segments - index) index offset cnt addresses B

/-- One synchronization slice of one pass: every lane's segment.  The source
runs the lanes concurrently and joins before the next slice; each lane
writes only inside its own segment, so processing lanes in order yields the
same matrix. -/
def fillSlice (G : Blk → Blk → Blk) (wr : List Blk → Nat → Blk → List Blk)
    (mode time memory threads lanes segments n slice : Nat)
    (B : List Blk) : List Blk :=
  (List.range threads).foldl
    (fun B lane =>
      processSegment G wr mode time memory threads lanes segments n slice lane B) B

/-- One full pass: the four synchronization slices in order. -/
def fillPass (G : Blk → Blk → Blk) (wr : List Blk → Nat → Blk → List Blk)
    (mode time memory threads lanes segments n : Nat)
    (B : List Blk) : List Blk :=
  (List.range syncPoints).foldl
    (fun B slice =>
      fillSlice G wr mode time memory threads lanes segments n slice B) B

/-- `processBlocks` (argon3.go lines 193-253): `time` passes over the
matrix, every write the source's unconditional XOR-accumulate. -/
def processBlocks (G : Blk → Blk → Blk) (B : List Blk)
    (time memory threads mode : Nat) : List Blk :=
  let lanes := memory / threads
  let segments := lanes / syncPoints
  (List.range time).foldl
    (fun B n => fillPass G wrXor mode time memory threads lanes segments n B) B

/-- The write discipline as the specification describes it: overwrite
during pass 0, XOR-accumulate during passes `≥ 1`.  Otherwise identical to
`processBlocks`. -/
def processBlocksSpec (G : Blk → Blk → Blk) (B : List Blk)
    (time memory threads mode : Nat) : List Blk :=
  let lanes := memory / threads
  let segments := lanes / syncPoints
  (List.range time).foldl
    (fun B n =>
      fillPass G (if n = 0 then wrOver else wrXor) mode time memory threads
        lanes segments n B) B

/-- One little-endian 64-bit word read at word position `w` of an
extendable-output byte stream (`binary.LittleEndian.Uint64`). -/
def streamWord (f : Nat → Nat) (w : Nat) : Nat :=
  f (8 * w) + 256 * f (8 * w + 1) + 65536 * f (8 * w + 2) +
    16777216 * f (8 * w + 3) + 4294967296 * f (8 * w + 4) +
    1099511627776 * f (8 * w + 5) + 281474976710656 * f (8 * w + 6) +
    72057594037927936 * f (8 * w + 7)

/-- The block `initBlocks` derives for block index `i` of a lane
(argon3.go lines 176-188): seed bytes `[64:68]` hold `i`, bytes `[68:72]`
hold the lane, and the 1024-byte extendable output of `H` on the seed is
read as 128 little-endian words. -/
def seedBlock (Hstream : List Nat → Nat → Nat) (h0 : List Nat) (i lane : Nat) : Blk :=
  (List.range blockLength).map (streamWord (Hstream (h0.take 64 ++ le32 i ++ le32 lane)))

/-- `initBlocks` (argon3.go lines 171-191): `make([]block, memory)` zeroes
the whole matrix; blocks 0 and 1 of each lane are then filled from the
seed. -/
def initBlocks (Hstream : List Nat → Nat → Nat) (h0 : List Nat)
    (memory threads : Nat) : List Blk :=
  (List.range threads).foldl
    (fun B lane =>
      let j := mul32 lane (memory / threads)
      (B.set j (seedBlock Hstream h0 0 lane)).set (add32 j 1)
        (seedBlock Hstream h0 1 lane))
    (List.replicate memory zeroBlk)

/-- `binary.LittleEndian.PutUint64`: the eight little-endian bytes of the
low 64 bits of `n`. -/
def le64 (n : Nat) : List Nat :=
  [n % 256, n / 256 % 256, n / 65536 % 256, n / 16777216 % 256,
   n / 4294967296 % 256, n / 1099511627776 % 256,
   n / 281474976710656 % 256, n / 72057594037927936 % 256]

/-- Serialization of a block to bytes (argon3.go lines 263-266): each word
as eight little-endian bytes. -/
def serializeBlk (b : Blk) : List Nat := b.flatMap le64

/-- The folded final block as claim C7 describes it: the last block of the
last lane XORed with the last block of every other lane.  Second
definition, written from the claim's words, for comparison with the
in-place loop of `extractKey`. -/
def finalBlockC7 (B : List Blk) (memory threads lanes : Nat) : Blk :=
  (List.range (threads - 1)).foldl
    (fun acc lane => blkXor acc (B.getD (lane * lanes + lanes - 1) zeroBlk))
    (B.getD (memory - 1) zeroBlk)

/-- `extractKey` (argon3.go lines 255-270): XOR the last block of lanes
`0..threads-2` into `B[memory-1]` in place, serialize that block to 1024
bytes and read `keyLen` bytes of `H`'s extendable output over them.  Index
arithmetic is `uint32`, as in the source. -/
def extractKey (Hstream : List Nat → Nat → Nat) (B : List Blk)
    (memory threads keyLen : Nat) : List Nat :=
  let lanes := memory / threads
  let B2 :=
    (List.range (dec32 threads)).foldl
      (fun Bm lane =>
        Bm.set (dec32 memory)
          (blkXor (Bm.getD (dec32 memory) zeroBlk)
            (Bm.getD (dec32 (add32 (mul32 lane lanes) lanes)) zeroBlk)))
      B
  (List.range keyLen).map (Hstream (serializeBlk (B2.getD (dec32 memory) zeroBlk)))

/-- `deriveKey` (argon3.go lines 113-129).  The Go source panics on
`time < 1` or `threads < 1`; the rejection is modelled as `none`.  Note the
order of operations: `initHash` receives the memory value as requested,
and only afterwards is the memory normalized. -/
def deriveKey (Hstream : List Nat → Nat → Nat) (G : Blk → Blk → Blk) (mode : Nat)
    (password salt secret data : List Nat) (time memory threads keyLen : Nat) :
    Option (List Nat) :=
  if time < 1 then none
  else if threads < 1 then none
  else
    let h0 := initHash Hstream password salt secret data time memory threads keyLen mode
    let memory2 := effectiveMemory memory threads
    let B := initBlocks Hstream h0 memory2 threads
    let B2 := processBlocks G B time memory2 threads mode
    some (extractKey Hstream B2 memory2 threads keyLen)

/-- `Key` (argon3.go lines 78-80): the Argon3i entry point. -/
def Key (Hstream : List Nat → Nat → Nat) (G : Blk → Blk → Blk)
    (password salt : List Nat) (time memory threads keyLen : Nat) :
    Option (List Nat) :=
  deriveKey Hstream G argon3i password salt [] [] time memory threads keyLen

/-- `IDKey` (argon3.go lines 102-104): the Argon3id entry point. -/
def IDKey (Hstream : List Nat → Nat → Nat) (G : Blk → Blk → Blk)
    (password salt : List Nat) (time memory threads keyLen : Nat) :
    Option (List Nat) :=
  deriveKey Hstream G argon3id password salt [] [] time memory threads keyLen

/-- `DKey` (argon3.go lines 109-111): the Argon3d entry point. -/
def DKey (Hstream : List Nat → Nat → Nat) (G : Blk → Blk → Blk)
    (password salt : List Nat) (time memory threads keyLen : Nat) :
    Option (List Nat) :=
  deriveKey Hstream G argon3d password salt [] [] time memory threads keyLen

/-- C2: for every requested memory and `threads ≥ 1`, the effective memory
equals `floor(memory/(4*threads))*(4*threads)` raised to exactly
`2*4*threads` when that product is smaller; it is a multiple of `4*threads`
and at least `8*threads`. -/
theorem effectiveMemory_spec (memory threads : Nat) (ht : 1 ≤ threads) :
    effectiveMemory memory threads =
      (if memory / (4 * threads) * (4 * threads) < 2 * (4 * threads)
        then 2 * (4 * threads)
        else memory / (4 * threads) * (4 * threads)) ∧
    (4 * threads) ∣ effectiveMemory memory threads ∧
    8 * threads ≤ effectiveMemory memory threads := by
  have hsync : syncPoints = 4 := rfl
  refine ⟨?_, ?_, ?_⟩
  · simp only [effectiveMemory, hsync]
    ring_nf
  · simp only [effectiveMemory, hsync]
    split
    · exact ⟨2, by ring⟩
    · exact ⟨memory / (4 * threads), by ring⟩
  · simp only [effectiveMemory, hsync]
    split
    · omega
    · omega

/-- Witness for `effectiveMemory_spec` at a concrete input. -/
theorem effectiveMemory_spec_witness :
    effectiveMemory 100 3 =
      (if 100 / (4 * 3) * (4 * 3) < 2 * (4 * 3)
        then 2 * (4 * 3)
        else 100 / (4 * 3) * (4 * 3)) ∧
    (4 * 3) ∣ effectiveMemory 100 3 ∧
    8 * 3 ≤ effectiveMemory 100 3 :=
  effectiveMemory_spec 100 3 (by decide)

theorem mul32_eq_of_lt {a b : Nat} (h : a * b < W32) : mul32 a b = a * b :=
  Nat.mod_eq_of_lt h

theorem add32_eq_of_lt {a b : Nat} (h : a + b < W32) : add32 a b = a + b :=
  Nat.mod_eq_of_lt h

theorem dec32_eq {a : Nat} (h1 : 1 ≤ a) (h2 : a ≤ W32) : dec32 a = a - 1 := by
  unfold dec32 at *
  unfold W32 at *
  omega

theorem add64_eq_of_lt {a b : Nat} (h : a + b < W64) : add64 a b = a + b :=
  Nat.mod_eq_of_lt h

theorem sub64_eq {a b : Nat} (hba : b ≤ a) (ha : a < W64) : sub64 a b = a - b := by
  unfold sub64 at *
  unfold W64 at *
  omega

/-- C3: for every position and every 64-bit randomness, `indexAlpha` computes
exactly the reference index the claim describes. -/
theorem indexAlpha_matches_claim
    (rand lanes segments threads n slice lane index : Nat) (hrand : rand < W64) :
    indexAlpha rand lanes segments threads n slice lane index =
      indexAlphaClaim rand lanes segments threads n slice lane index := by
  have hd : rand / W32 % W32 = rand / W32 := by
    apply Nat.mod_eq_of_lt
    apply Nat.div_lt_of_lt_mul
    calc rand < W64 := hrand
    _ = W32 * W32 := by decide
  simp only [indexAlpha, indexAlphaClaim, alphaRefLane, alphaM, alphaS, phi, phiP,
    syncPoints, hd]
  by_cases hn : n = 0 <;> by_cases hs : slice = 0
  · simp [hn, hs]
  · by_cases hr : lane = rand / W32 % threads
    · simp [hn, hs, hr, eq_comm]
    · simp [hn, hs, hr, Ne.symm hr]
  · by_cases hr : lane = rand / W32 % threads
    · simp [hn, hs, hr, eq_comm]
    · simp [hn, hs, hr, Ne.symm hr]
  · by_cases hr : lane = rand / W32 % threads
    · simp [hn, hs, hr, eq_comm]
    · simp [hn, hs, hr, Ne.symm hr]

/-- Witness for `indexAlpha_matches_claim` at a concrete input. -/
theorem indexAlpha_matches_claim_witness :
    indexAlpha 81985529216486895 8 2 2 1 3 1 1 =
      indexAlphaClaim 81985529216486895 8 2 2 1 3 1 1 :=
  indexAlpha_matches_claim 81985529216486895 8 2 2 1 3 1 1 (by decide)

/-- Under the preconditions established by `processBlocks`, the adjusted
window size `m` computed by `indexAlpha` is at least `1` and less than
`lanes = 4*segments`: none of its `uint32` operations wraps. -/
theorem alphaM_bounds (segments n slice lane refLane index : Nat)
    (hseg : 2 ≤ segments) (hslice : slice < 4) (hindex : index < segments)
    (hW : 4 * segments < W32)
    (hstart : n = 0 → slice = 0 → 2 ≤ index)
    (hforce : n = 0 → slice = 0 → refLane = lane) :
    1 ≤ alphaM segments n slice lane refLane index ∧
      alphaM segments n slice lane refLane index < 4 * segments := by
  have hss : slice * segments ≤ 3 * segments :=
    Nat.mul_le_mul_right segments (by omega)
  have hpos : n = 0 → 2 ≤ slice * segments + index := by
    intro hn
    rcases Nat.eq_zero_or_pos slice with h | h
    · have := hstart hn h
      omega
    · have : 1 * segments ≤ slice * segments := Nat.mul_le_mul_right segments h
      omega
  simp only [alphaM]
  rw [mul32_eq_of_lt (show 3 * segments < W32 by omega),
      mul32_eq_of_lt (show slice * segments < W32 by omega)]
  by_cases hn : n = 0
  · rw [if_pos hn]
    by_cases hr : lane = refLane
    · rw [if_pos (show slice = 0 ∨ lane = refLane from Or.inr hr),
        add32_eq_of_lt (by omega),
        if_pos (show index = 0 ∨ lane = refLane from Or.inr hr),
        dec32_eq (by have := hpos hn; omega) (by omega)]
      have := hpos hn
      omega
    · by_cases hs : slice = 0
      · have hi := hstart hn hs
        rw [if_pos (show slice = 0 ∨ lane = refLane from Or.inl hs),
          add32_eq_of_lt (by omega),
          if_neg (show ¬(index = 0 ∨ lane = refLane) from by
            rintro (h | h) <;> [omega; exact hr h])]
        omega
      · have hsl : 1 ≤ slice := by omega
        have hsg : 1 * segments ≤ slice * segments :=
          Nat.mul_le_mul_right segments hsl
        rw [if_neg (show ¬(slice = 0 ∨ lane = refLane) from by
            rintro (h | h) <;> [exact hs h; exact hr h])]
        by_cases hi : index = 0
        · rw [if_pos (show index = 0 ∨ lane = refLane from Or.inl hi),
            dec32_eq (by omega) (by omega)]
          omega
        · rw [if_neg (show ¬(index = 0 ∨ lane = refLane) from by
              rintro (h | h) <;> [exact hi h; exact hr h])]
          omega
  · rw [if_neg hn]
    by_cases hr : lane = refLane
    · rw [if_pos hr, add32_eq_of_lt (by omega),
        if_pos (show index = 0 ∨ lane = refLane from Or.inr hr),
        dec32_eq (by omega) (by omega)]
      omega
    · rw [if_neg hr]
      by_cases hi : index = 0
      · rw [if_pos (show index = 0 ∨ lane = refLane from Or.inl hi),
          dec32_eq (by omega) (by omega)]
        omega
      · rw [if_neg (show ¬(index = 0 ∨ lane = refLane) from by
            rintro (h | h) <;> [exact hi h; exact hr h])]
        omega

/-- The mapped value `p` is strictly below the window size `m` whenever
`1 ≤ m < 2^32`: no underflow can occur in `s + m - (p+1)`. -/
theorem phiP_lt (rand m : Nat) (hm : 1 ≤ m) (hmW : m < W32) :
    phiP rand m < m := by
  have hW32 : (0:Nat) < W32 := by decide
  have hp0 : rand % W32 < W32 := Nat.mod_lt rand hW32
  simp only [phiP]
  have h1 : mul64 (rand % W32) (rand % W32) = rand % W32 * (rand % W32) := by
    apply Nat.mod_eq_of_lt
    calc rand % W32 * (rand % W32) < W32 * W32 := by
          apply Nat.mul_lt_mul_of_lt_of_lt hp0 hp0
    _ = W64 := by decide
  rw [h1]
  have hp1 : rand % W32 * (rand % W32) / W32 < W32 := by
    apply Nat.div_lt_of_lt_mul
    exact Nat.mul_lt_mul_of_lt_of_lt hp0 hp0
  set p1 := rand % W32 * (rand % W32) / W32 with hp1def
  have h2 : mul64 p1 m = p1 * m := by
    apply Nat.mod_eq_of_lt
    calc p1 * m < W32 * W32 := Nat.mul_lt_mul_of_lt_of_lt hp1 hmW
    _ = W64 := by decide
  rw [h2]
  apply Nat.div_lt_of_lt_mul
  have h3 : p1 * m < W32 * m := by
    apply Nat.mul_lt_mul_of_lt_of_le hp1 (Nat.le_refl m)
    omega
  exact h3

/-- C10: under the effective-memory preconditions of `processBlocks`
(`lanes = 4*segments`, `segments ≥ 2`, `memory = threads*lanes < 2^32`),
every call `indexAlpha` makes has window size `m ≥ 1`, mapped value
`p < m` (so `s + m - (p+1)` does not underflow), and returns a reference
index inside the reference lane, hence below the effective memory: every
read `B[newOffset]` stays inside the block matrix. -/
theorem indexAlpha_bounds
    (rand lanes segments threads n slice lane index memory : Nat)
    (hrand : rand < W64) (hseg : 2 ≤ segments) (hlanes : lanes = 4 * segments)
    (hmem : memory = threads * lanes) (hup : memory < W32)
    (ht : 1 ≤ threads) (hslice : slice < 4) (hlane : lane < threads)
    (hindex : index < segments) (hstart : n = 0 → slice = 0 → 2 ≤ index) :
    1 ≤ alphaM segments n slice lane (alphaRefLane rand threads n slice lane) index ∧
    phiP rand (alphaM segments n slice lane (alphaRefLane rand threads n slice lane) index) <
      alphaM segments n slice lane (alphaRefLane rand threads n slice lane) index ∧
    alphaRefLane rand threads n slice lane * lanes ≤
      indexAlpha rand lanes segments threads n slice lane index ∧
    indexAlpha rand lanes segments threads n slice lane index <
      alphaRefLane rand threads n slice lane * lanes + lanes ∧
    indexAlpha rand lanes segments threads n slice lane index < memory := by
  have hW32v : W32 = 4294967296 := rfl
  have hW64v : W64 = 18446744073709551616 := rfl
  set refLane := alphaRefLane rand threads n slice lane with hrl
  have hlanesle : lanes ≤ memory := by
    calc lanes = 1 * lanes := by omega
    _ ≤ threads * lanes := Nat.mul_le_mul_right lanes ht
    _ = memory := hmem.symm
  have hWseg : 4 * segments < W32 := by omega
  have hrlane : refLane < threads := by
    rw [hrl]
    unfold alphaRefLane
    split
    · exact hlane
    · exact Nat.mod_lt _ (by omega)
  have hforce : n = 0 → slice = 0 → refLane = lane := by
    intro hn hs
    rw [hrl]
    unfold alphaRefLane
    rw [if_pos ⟨hn, hs⟩]
  obtain ⟨hm1, hm2⟩ :=
    alphaM_bounds segments n slice lane refLane index hseg hslice hindex hWseg hstart hforce
  set M := alphaM segments n slice lane refLane index with hM
  have hplt : phiP rand M < M := phiP_lt rand M hm1 (by omega)
  have hS : alphaS segments n slice ≤ 3 * segments := by
    unfold alphaS
    split
    · omega
    · have h4 : (slice + 1) % syncPoints < 4 := Nat.mod_lt _ (by decide)
      have : (slice + 1) % syncPoints * segments ≤ 3 * segments :=
        Nat.mul_le_mul_right segments (by omega)
      rw [mul32_eq_of_lt (by omega)]
      exact this
  set S := alphaS segments n slice with hSdef
  refine ⟨hm1, hplt, ?_⟩
  have hrll : refLane * lanes + lanes ≤ memory := by
    calc refLane * lanes + lanes = (refLane + 1) * lanes := by ring
    _ ≤ threads * lanes := Nat.mul_le_mul_right lanes (by omega)
    _ = memory := hmem.symm
  have hidx : indexAlpha rand lanes segments threads n slice lane index =
      refLane * lanes + (S + M - (phiP rand M + 1)) % lanes := by
    show phi rand M S refLane lanes = _
    unfold phi
    rw [add64_eq_of_lt (by omega), add64_eq_of_lt (by omega)]
    rw [sub64_eq (by omega) (by omega)]
    have hmodlt : (S + M - (phiP rand M + 1)) % lanes < lanes :=
      Nat.mod_lt _ (by omega)
    rw [Nat.mod_eq_of_lt (show (S + M - (phiP rand M + 1)) % lanes < W32 by omega)]
    rw [mul32_eq_of_lt (by omega), add32_eq_of_lt (by omega)]
  have hmodlt : (S + M - (phiP rand M + 1)) % lanes < lanes := Nat.mod_lt _ (by omega)
  rw [hidx]
  omega

/-- Witness for `indexAlpha_bounds` at a concrete input. -/
theorem indexAlpha_bounds_witness :
    1 ≤ alphaM 4 0 0 0 (alphaRefLane 5 1 0 0 0) 2 ∧
    phiP 5 (alphaM 4 0 0 0 (alphaRefLane 5 1 0 0 0) 2) <
      alphaM 4 0 0 0 (alphaRefLane 5 1 0 0 0) 2 ∧
    alphaRefLane 5 1 0 0 0 * 16 ≤ indexAlpha 5 16 4 1 0 0 0 2 ∧
    indexAlpha 5 16 4 1 0 0 0 2 < alphaRefLane 5 1 0 0 0 * 16 + 16 ∧
    indexAlpha 5 16 4 1 0 0 0 2 < 16 :=
  indexAlpha_bounds 5 16 4 1 0 0 0 2 16 (by decide) (by decide) (by decide)
    (by decide) (by decide) (by decide) (by decide) (by decide) (by decide)
    (fun _ _ => by decide)

/-- Counterexample to C1: at a derivation call with requested memory 0 and
one thread, the parameter block streamed by `initHash` encodes memory 0,
while the effective memory (which the claim says is encoded) is 8. -/
theorem initHash_claimC1_counterexample :
    initHashInput [] [] [] [] 1 0 1 32 argon3i ≠
      initHashInputC1 [] [] [] [] 1 0 1 32 argon3i := by
  decide

/-- C1 (amended): the parameter block streamed by `initHash` encodes, as
4-byte little-endian `uint32`s, threads, keyLen, the memory value AS
REQUESTED (not the normalized effective memory), time, version `0x13` and
mode, followed by the length-prefixed password, salt, secret and associated
data; and the first 64 bytes of the seed are the extendable output of `H`
over exactly that stream. -/
theorem initHash_stream_spec (Hstream : List Nat → Nat → Nat)
    (password salt key data : List Nat) (time memory threads keyLen mode : Nat) :
    initHashInput password salt key data time memory threads keyLen mode =
      le32 threads ++ le32 keyLen ++ le32 memory ++ le32 time ++
        le32 19 ++ le32 mode ++
      le32 password.length ++ password ++ le32 salt.length ++ salt ++
      le32 key.length ++ key ++ le32 data.length ++ data ∧
    (initHash Hstream password salt key data time memory threads keyLen mode).take 64 =
      (List.range 64).map
        (Hstream (initHashInput password salt key data time memory threads keyLen mode)) ∧
    (initHash Hstream password salt key data time memory threads keyLen mode).length = 72 := by
  refine ⟨rfl, ?_, ?_⟩
  · simp [initHash]
  · simp [initHash]

theorem getD_set_self {α : Type} :
    ∀ (l : List α) (i : Nat) (v d : α), i < l.length → (l.set i v).getD i d = v
  | [], i, _, _, h => absurd h (by simp)
  | _ :: _, 0, _, _, _ => rfl
  | _ :: bs, i + 1, v, d, h => getD_set_self bs i v d (by simpa using h)

theorem getD_set_other {α : Type} :
    ∀ (l : List α) (i o : Nat) (v d : α), o ≠ i → (l.set i v).getD o d = l.getD o d
  | [], _, _, _, _, _ => rfl
  | _ :: _, 0, 0, _, _, h => absurd rfl h
  | _ :: _, 0, _ + 1, _, _, _ => rfl
  | _ :: _, _ + 1, 0, _, _, _ => rfl
  | _ :: bs, i + 1, o + 1, v, d, h =>
    getD_set_other bs i o v d (fun hh => h (by omega))

/-- C5: in hybrid mode (`argon3id`) the addressing randomness is drawn from
the data-independent address block exactly when `n = 0` and `slice < 2`;
`argon3i` always consults the address block and `argon3d` never does. -/
theorem stepRandom_mode_spec (n slice index prev : Nat) (addresses : Blk)
    (B : List Blk) :
    (stepRandom argon3id n slice index prev addresses B =
      if n = 0 ∧ slice < 2 then addresses.getD (index % blockLength) 0
      else (B.getD prev zeroBlk).headD 0) ∧
    stepRandom argon3i n slice index prev addresses B =
      addresses.getD (index % blockLength) 0 ∧
    stepRandom argon3d n slice index prev addresses B =
      (B.getD prev zeroBlk).headD 0 := by
  have hiff : usesAddressBlock argon3id n slice ↔ (n = 0 ∧ slice < 2) := by
    unfold usesAddressBlock argon3id argon3i syncPoints
    omega
  refine ⟨?_, ?_, ?_⟩
  · by_cases h : n = 0 ∧ slice < 2
    · unfold stepRandom
      rw [if_pos (hiff.mpr h), if_pos h]
    · unfold stepRandom
      rw [if_neg (fun hh => h (hiff.mp hh)), if_neg h]
  · unfold stepRandom
    rw [if_pos (show usesAddressBlock argon3i n slice from Or.inl rfl)]
  · unfold stepRandom
    rw [if_neg (show ¬ usesAddressBlock argon3d n slice from by
      unfold usesAddressBlock argon3d argon3i argon3id syncPoints
      omega)]

/-- C6: under data-dependent addressing (`argon3d` everywhere; `argon3id`
outside pass 0 slices 0-1) the randomness is word 0 of the block at the
immediately preceding offset within the lane, wrapping to word 0 of the
lane's last block at the lane's first position (`slice = 0`, `index = 0`). -/
theorem dependentRandom_spec (mode n slice index lane lanes segments offset : Nat)
    (addresses : Blk) (B : List Blk)
    (hmode : mode = argon3d ∨ (mode = argon3id ∧ ¬(n = 0 ∧ slice < 2)))
    (hoffset : offset = lane * lanes + slice * segments + index)
    (hseg : 1 ≤ segments) (hlanes : 1 ≤ lanes) (hW : offset + lanes ≤ W32) :
    stepRandom mode n slice index (prevOffset offset slice index lanes) addresses B =
      (B.getD
        (if slice = 0 ∧ index = 0 then lane * lanes + lanes - 1 else offset - 1)
        zeroBlk).headD 0 := by
  have hnind : ¬ usesAddressBlock mode n slice := by
    unfold usesAddressBlock
    rcases hmode with h | ⟨h, h2⟩
    · subst h
      unfold argon3d argon3i argon3id
      omega
    · subst h
      unfold argon3id argon3i syncPoints
      omega
  have hprev : prevOffset offset slice index lanes =
      (if slice = 0 ∧ index = 0 then lane * lanes + lanes - 1 else offset - 1) := by
    unfold prevOffset
    by_cases h : index = 0 ∧ slice = 0
    · have hze : slice * segments = 0 := by
        rw [h.2]
        exact Nat.zero_mul segments
      have hoff : offset = lane * lanes := by omega
      rw [if_pos h, if_pos ⟨h.2, h.1⟩]
      unfold add32 dec32 W32
      unfold W32 at hW
      omega
    · have hpos : 1 ≤ offset := by
        rcases Nat.eq_zero_or_pos index with hi | hi
        · have hs : ¬ slice = 0 := fun hs => h ⟨hi, hs⟩
          have : 1 * segments ≤ slice * segments :=
            Nat.mul_le_mul_right segments (by omega)
          omega
        · omega
      rw [if_neg h, if_neg (fun hh => h ⟨hh.2, hh.1⟩)]
      unfold dec32 W32
      unfold W32 at hW
      omega
  unfold stepRandom
  rw [if_neg hnind, hprev]

/-- Witness for `dependentRandom_spec` at a concrete input. -/
theorem dependentRandom_spec_witness :
    stepRandom argon3d 0 0 1 (prevOffset 1 0 1 8) [] [[5, 4], [6, 7]] =
      ([[5, 4], [6, 7]].getD (if (0 : Nat) = 0 ∧ (1 : Nat) = 0 then 0 * 8 + 8 - 1 else 1 - 1)
        zeroBlk).headD 0 :=
  dependentRandom_spec argon3d 0 0 1 0 8 2 1 [] [[5, 4], [6, 7]]
    (Or.inl rfl) (by decide) (by decide) (by decide) (by decide)

/-- C8: `deriveKey` rejects exactly the invalid cost parameters `time = 0`
or `threads = 0`; the rejection happens before the matrix is built (it is
the first thing the function does), and every `time ≥ 1`, `threads ≥ 1`
input proceeds to a derived key. -/
theorem deriveKey_rejects_iff (Hstream : List Nat → Nat → Nat)
    (G : Blk → Blk → Blk) (mode : Nat) (password salt secret data : List Nat)
    (time memory threads keyLen : Nat) :
    deriveKey Hstream G mode password salt secret data time memory threads keyLen
        = none ↔
      time = 0 ∨ threads = 0 := by
  unfold deriveKey
  by_cases h1 : time < 1
  · rw [if_pos h1]
    constructor
    · intro
      omega
    · intro
      rfl
  · rw [if_neg h1]
    by_cases h2 : threads < 1
    · rw [if_pos h2]
      constructor
      · intro
        omega
      · intro
        rfl
    · rw [if_neg h2]
      constructor
      · intro h
        exact absurd h (by simp)
      · intro h
        omega

/-- C9: for valid parameters every entry point returns exactly `keyLen`
bytes (`keyLen = 0` gives the empty list). -/
theorem deriveKey_length (Hstream : List Nat → Nat → Nat) (G : Blk → Blk → Blk)
    (mode : Nat) (password salt secret data : List Nat)
    (time memory threads keyLen : Nat)
    (htime : 1 ≤ time) (hthreads : 1 ≤ threads) :
    Option.map List.length
        (deriveKey Hstream G mode password salt secret data time memory threads keyLen)
      = some keyLen ∧
    Option.map List.length (Key Hstream G password salt time memory threads keyLen)
      = some keyLen ∧
    Option.map List.length (IDKey Hstream G password salt time memory threads keyLen)
      = some keyLen ∧
    Option.map List.length (DKey Hstream G password salt time memory threads keyLen)
      = some keyLen := by
  have hlen : ∀ (B : List Blk) (m t : Nat), (extractKey Hstream B m t keyLen).length = keyLen := by
    intro B m t
    simp [extractKey]
  simp only [Key, IDKey, DKey, deriveKey,
    if_neg (show ¬ time < 1 by omega), if_neg (show ¬ threads < 1 by omega)]
  refine ⟨?_, ?_, ?_, ?_⟩ <;> simp [hlen]

/-- Witness for `deriveKey_length` at a concrete input. -/
theorem deriveKey_length_witness :
    Option.map List.length
        (deriveKey (fun _ _ => 0) (fun _ _ => []) argon3d [] [] [] [] 1 0 1 1)
      = some 1 ∧
    Option.map List.length (Key (fun _ _ => 0) (fun _ _ => []) [] [] 1 0 1 1)
      = some 1 ∧
    Option.map List.length (IDKey (fun _ _ => 0) (fun _ _ => []) [] [] 1 0 1 1)
      = some 1 ∧
    Option.map List.length (DKey (fun _ _ => 0) (fun _ _ => []) [] [] 1 0 1 1)
      = some 1 :=
  deriveKey_length (fun _ _ => 0) (fun _ _ => []) argon3d [] [] [] [] 1 0 1 1
    (by decide) (by decide)

/-- C7: `extractKey` XORs the last block of every lane except the last
(lanes `0..threads-2`) into the last block of the last lane
(`B[memory-1]`), serializes the folded block as 128 little-endian 64-bit
words and returns exactly `keyLen` bytes of `H`'s extendable output over
that serialization. -/
theorem extractKey_spec (Hstream : List Nat → Nat → Nat) (B : List Blk)
    (memory threads keyLen lanes : Nat)
    (ht : 1 ≤ threads) (hl : 1 ≤ lanes) (hmem : memory = threads * lanes)
    (hW : memory < W32) (hlen : B.length = memory) :
    extractKey Hstream B memory threads keyLen =
      (List.range keyLen).map
        (Hstream (serializeBlk (finalBlockC7 B memory threads lanes))) ∧
    (extractKey Hstream B memory threads keyLen).length = keyLen := by
  have hW32v : W32 = 4294967296 := rfl
  have hmem1 : 1 ≤ memory := by
    have : 1 * 1 ≤ threads * lanes := Nat.mul_le_mul ht hl
    omega
  have hthlt : threads ≤ memory := by
    calc threads = threads * 1 := by omega
    _ ≤ threads * lanes := Nat.mul_le_mul_left threads hl
    _ = memory := hmem.symm
  have hlanes_eq : memory / threads = lanes := by
    rw [hmem]
    exact Nat.mul_div_cancel_left lanes (by omega)
  have hdt : dec32 threads = threads - 1 := dec32_eq ht (by omega)
  have hdm : dec32 memory = memory - 1 := dec32_eq hmem1 (by omega)
  have hsrc : ∀ lane, lane < threads - 1 →
      dec32 (add32 (mul32 lane lanes) lanes) = lane * lanes + lanes - 1 := by
    intro lane hlt
    have h1 : (lane + 1) * lanes ≤ memory := by
      rw [hmem]
      exact Nat.mul_le_mul_right lanes (by omega)
    have h1b : lane * lanes + lanes ≤ memory := by
      calc lane * lanes + lanes = (lane + 1) * lanes := by ring
      _ ≤ memory := h1
    rw [mul32_eq_of_lt (by omega), add32_eq_of_lt (by omega),
      dec32_eq (by omega) (by omega)]
  have hsrcne : ∀ lane, lane < threads - 1 →
      lane * lanes + lanes - 1 ≠ memory - 1 := by
    intro lane hlt
    have h1 : (lane + 1) * lanes ≤ (threads - 1) * lanes :=
      Nat.mul_le_mul_right lanes (by omega)
    have h2 : (threads - 1) * lanes + lanes = memory := by
      have h3 : threads - 1 + 1 = threads := by omega
      calc (threads - 1) * lanes + lanes = (threads - 1 + 1) * lanes := by ring
      _ = threads * lanes := by rw [h3]
      _ = memory := hmem.symm
    have h4 : lane * lanes + lanes = (lane + 1) * lanes := by ring
    omega
  simp only [extractKey, hlanes_eq, hdt, hdm]
  have main : ∀ k, k ≤ threads - 1 →
      ((List.range k).foldl
          (fun Bm lane =>
            Bm.set (memory - 1)
              (blkXor (Bm.getD (memory - 1) zeroBlk)
                (Bm.getD (dec32 (add32 (mul32 lane lanes) lanes)) zeroBlk))) B).getD
          (memory - 1) zeroBlk =
        (List.range k).foldl
          (fun acc lane => blkXor acc (B.getD (lane * lanes + lanes - 1) zeroBlk))
          (B.getD (memory - 1) zeroBlk) ∧
      (∀ o, o ≠ memory - 1 →
        ((List.range k).foldl
            (fun Bm lane =>
              Bm.set (memory - 1)
                (blkXor (Bm.getD (memory - 1) zeroBlk)
                  (Bm.getD (dec32 (add32 (mul32 lane lanes) lanes)) zeroBlk))) B).getD
            o zeroBlk = B.getD o zeroBlk) ∧
      ((List.range k).foldl
          (fun Bm lane =>
            Bm.set (memory - 1)
              (blkXor (Bm.getD (memory - 1) zeroBlk)
                (Bm.getD (dec32 (add32 (mul32 lane lanes) lanes)) zeroBlk))) B).length
        = memory := by
    intro k
    induction k with
    | zero =>
      intro _
      exact ⟨by simp, fun o _ => by simp, by simp [hlen]⟩
    | succ k ih =>
      intro hk
      obtain ⟨ih1, ih2, ih3⟩ := ih (by omega)
      rw [List.range_succ, List.foldl_append, List.foldl_append]
      simp only [List.foldl_cons, List.foldl_nil]
      refine ⟨?_, ?_, ?_⟩
      · rw [getD_set_self _ _ _ _ (by rw [ih3]; omega)]
        rw [hsrc k (by omega), ih1, ih2 _ (hsrcne k (by omega))]
      · intro o ho
        rw [getD_set_other _ _ _ _ _ ho, ih2 o ho]
      · rw [List.length_set, ih3]
  obtain ⟨m1, m2, m3⟩ := main (threads - 1) (Nat.le_refl _)
  constructor
  · rw [m1]
    rfl
  · simp

/-- Witness for `extractKey_spec` at a concrete input. -/
theorem extractKey_spec_witness :
    extractKey (fun _ i => i) [[1, 2], [3, 4]] 2 2 5 =
      (List.range 5).map
        ((fun _ i => i : List Nat → Nat → Nat)
          (serializeBlk (finalBlockC7 [[1, 2], [3, 4]] 2 2 1))) ∧
    (extractKey (fun _ i => i) [[1, 2], [3, 4]] 2 2 5).length = 5 :=
  extractKey_spec (fun _ i => i) [[1, 2], [3, 4]] 2 2 5 1
    (by decide) (by decide) (by decide) (by decide) (by decide)

theorem getD_replicate {α : Type} : ∀ (n i : Nat) (a : α),
    (List.replicate n a).getD i a = a
  | 0, 0, _ => rfl
  | 0, _ + 1, _ => rfl
  | _ + 1, 0, _ => rfl
  | n + 1, i + 1, a => getD_replicate n i a

theorem zipWith_xor_zero : ∀ (v : List Nat) (n : Nat), v.length = n →
    List.zipWith Nat.xor (List.replicate n 0) v = v
  | [], 0, _ => rfl
  | [], _ + 1, h => absurd h (by simp)
  | _ :: _, 0, h => absurd h (by simp)
  | x :: xs, n + 1, h => by
    simp only [List.replicate, List.zipWith]
    rw [zipWith_xor_zero xs n (by simpa using h)]
    have hx : Nat.xor 0 x = x := Nat.zero_xor x
    rw [hx]

/-- XOR into a still-zero destination block is plain overwrite. -/
theorem blkXor_zero (v : Blk) (h : v.length = blockLength) : blkXor zeroBlk v = v :=
  zipWith_xor_zero v blockLength h

theorem foldl_ext {α β : Type} (f g : α → β → α) :
    ∀ (l : List β) (a : α), (∀ x b, b ∈ l → f x b = g x b) →
      l.foldl f a = l.foldl g a
  | [], _, _ => rfl
  | b :: l, a, h => by
    simp only [List.foldl_cons]
    rw [h a b (by simp)]
    exact foldl_ext f g l (g a b) (fun x c hc => h x c (by simp [hc]))

/-- `fillSeg` only writes at offsets `[offset, offset + rem)`: any other
entry of the matrix is left unchanged (stated for a write operation that
preserves other entries, as both `wrXor` and `wrOver` do). -/
theorem fillSeg_untouched (G : Blk → Blk → Blk)
    (wr : List Blk → Nat → Blk → List Blk)
    (hwr : ∀ B i v o, o ≠ i → (wr B i v).getD o zeroBlk = B.getD o zeroBlk)
    (mode time memory threads lanes segments n slice lane : Nat) :
    ∀ (rem index offset cnt : Nat) (addresses : Blk) (B : List Blk) (o : Nat),
      offset + rem ≤ W32 →
      (o < offset ∨ offset + rem ≤ o) →
      (fillSeg G wr mode time memory threads lanes segments n slice lane
          rem index offset cnt addresses B).getD o zeroBlk = B.getD o zeroBlk := by
  intro rem
  induction rem with
  | zero =>
    intro index offset cnt addresses B o _ _
    rfl
  | succ rem ih =>
    intro index offset cnt addresses B o hWb ho
    have hW32v : W32 = 4294967296 := rfl
    have hne : o ≠ offset := by omega
    have step : ∀ (c : Nat) (ad : Blk) (B2 : List Blk),
        (fillSeg G wr mode time memory threads lanes segments n slice lane
            rem (index + 1) (add32 offset 1) c ad B2).getD o zeroBlk
          = B2.getD o zeroBlk := by
      intro c ad B2
      by_cases hcase : offset + 1 < W32
      · exact ih (index + 1) (add32 offset 1) c ad B2 o
          (by rw [add32_eq_of_lt hcase]; omega)
          (by rw [add32_eq_of_lt hcase]; omega)
      · have hrem : rem = 0 := by omega
        subst hrem
        rfl
    simp only [fillSeg]
    rw [step, hwr _ _ _ _ hne]

/-- During pass 0, when every destination of the remaining segment is still
the zero block, the source's XOR-accumulate write produces exactly the same
matrix as the overwrite discipline. -/
theorem fillSeg_equiv (G : Blk → Blk → Blk)
    (hG : ∀ x y, (G x y).length = blockLength)
    (mode time memory threads lanes segments n slice lane : Nat) :
    ∀ (rem index offset cnt : Nat) (addresses : Blk) (B : List Blk),
      offset + rem ≤ W32 →
      (∀ j, j < rem → B.getD (offset + j) zeroBlk = zeroBlk) →
      fillSeg G wrXor mode time memory threads lanes segments n slice lane
          rem index offset cnt addresses B =
        fillSeg G wrOver mode time memory threads lanes segments n slice lane
          rem index offset cnt addresses B := by
  intro rem
  induction rem with
  | zero =>
    intro index offset cnt addresses B _ _
    rfl
  | succ rem ih =>
    intro index offset cnt addresses B hWb hz
    have hW32v : W32 = 4294967296 := rfl
    have hz0 : B.getD offset zeroBlk = zeroBlk := by
      have := hz 0 (by omega)
      rwa [Nat.add_zero] at this
    have hwr_eq : ∀ v : Blk, v.length = blockLength →
        wrXor B offset v = wrOver B offset v := by
      intro v hvl
      unfold wrXor wrOver
      rw [hz0, blkXor_zero v hvl]
    simp only [fillSeg]
    rw [hwr_eq _ (hG _ _)]
    by_cases hcase : offset + 1 < W32
    · apply ih (index + 1) (add32 offset 1) _ _ _
        (by rw [add32_eq_of_lt hcase]; omega)
      intro j hj
      rw [add32_eq_of_lt hcase]
      show (wrOver B offset _).getD (offset + 1 + j) zeroBlk = zeroBlk
      unfold wrOver
      rw [getD_set_other _ _ _ _ _ (by omega)]
      have h2 : offset + 1 + j = offset + (j + 1) := by omega
      rw [h2]
      exact hz (j + 1) (by omega)
    · have hrem : rem = 0 := by omega
      subst hrem
      rfl

theorem lane_decomp_inj (lanes lane lane2 c c2 : Nat) (hlanes0 : 0 < lanes)
    (hc : c < lanes) (hc2 : c2 < lanes)
    (h : lane * lanes + c = lane2 * lanes + c2) : lane = lane2 ∧ c = c2 := by
  have e1 : (lanes * lane + c) / lanes = lane := by
    rw [Nat.mul_add_div hlanes0, Nat.div_eq_of_lt hc, Nat.add_zero]
  have e2 : (lanes * lane2 + c2) / lanes = lane2 := by
    rw [Nat.mul_add_div hlanes0, Nat.div_eq_of_lt hc2, Nat.add_zero]
  have hcl : lanes * lane = lane * lanes := Nat.mul_comm _ _
  have hcl2 : lanes * lane2 = lane2 * lanes := Nat.mul_comm _ _
  have h2 : lanes * lane + c = lanes * lane2 + c2 := by omega
  have hL : lane = lane2 := by rw [← e1, ← e2, h2]
  exact ⟨hL, by subst hL; omega⟩

theorem inner_lt (lanes segments s j : Nat) (hlanes : lanes = 4 * segments)
    (hs : s < 4) (hj : j < segments) : s * segments + j < lanes := by
  have h1 : (s + 1) * segments ≤ 4 * segments :=
    Nat.mul_le_mul_right segments (by omega)
  have h2 : s * segments + segments = (s + 1) * segments := by ring
  omega

/-- The position map `(lane, slice, j) ↦ lane*lanes + slice*segments + j`
is injective on in-range triples: distinct positions of the matrix. -/
theorem pos_ne (lanes segments lane lane2 s s2 j j2 : Nat)
    (hlanes : lanes = 4 * segments) (hseg : 1 ≤ segments)
    (hs : s < 4) (hs2 : s2 < 4) (hj : j < segments) (hj2 : j2 < segments)
    (hne : ¬(lane = lane2 ∧ s = s2 ∧ j = j2)) :
    lane * lanes + s * segments + j ≠ lane2 * lanes + s2 * segments + j2 := by
  intro h
  apply hne
  have hc : s * segments + j < lanes := inner_lt lanes segments s j hlanes hs hj
  have hc2 : s2 * segments + j2 < lanes := inner_lt lanes segments s2 j2 hlanes hs2 hj2
  have h2 : lane * lanes + (s * segments + j) = lane2 * lanes + (s2 * segments + j2) := by
    omega
  obtain ⟨hL, hC⟩ := lane_decomp_inj lanes lane lane2 _ _ (by omega) hc hc2 h2
  obtain ⟨hS, hJ⟩ := lane_decomp_inj segments s s2 j j2 (by omega) hj hj2 hC
  exact ⟨hL, hS, hJ⟩

/-- The `uint32` base-offset computation of `processSegment` does not wrap,
and the whole segment lies inside the matrix. -/
theorem segBase_eq (lanes segments threads memory lane slice start : Nat)
    (hlanes : lanes = 4 * segments) (hmem : memory = threads * lanes)
    (hW : memory < W32) (hlane : lane < threads) (hslice : slice < 4)
    (hstart : start ≤ segments) :
    add32 (add32 (mul32 lane lanes) (mul32 slice segments)) start =
      lane * lanes + slice * segments + start ∧
    lane * lanes + slice * segments + segments ≤ memory := by
  have h1 : (lane + 1) * lanes ≤ memory := by
    rw [hmem]
    exact Nat.mul_le_mul_right lanes (by omega)
  have h3 : lane * lanes + lanes = (lane + 1) * lanes := by ring
  have h2 : (slice + 1) * segments ≤ lanes := by
    rw [hlanes]
    exact Nat.mul_le_mul_right segments (by omega)
  have h4 : slice * segments + segments = (slice + 1) * segments := by ring
  have h5 : 1 * lanes ≤ threads * lanes :=
    Nat.mul_le_mul_right lanes (by omega)
  constructor
  · rw [mul32_eq_of_lt (show lane * lanes < W32 by omega),
      mul32_eq_of_lt (show slice * segments < W32 by omega),
      add32_eq_of_lt (show lane * lanes + slice * segments < W32 by omega),
      add32_eq_of_lt (show lane * lanes + slice * segments + start < W32 by omega)]
  · omega

/-- `processSegment` leaves every entry outside its own segment region
unchanged. -/
theorem processSegment_untouched (G : Blk → Blk → Blk)
    (wr : List Blk → Nat → Blk → List Blk)
    (hwr : ∀ B i v o, o ≠ i → (wr B i v).getD o zeroBlk = B.getD o zeroBlk)
    (mode time memory threads lanes segments n slice lane : Nat)
    (B : List Blk) (o : Nat)
    (hlanes : lanes = 4 * segments) (hmem : memory = threads * lanes)
    (hW : memory < W32) (hlane : lane < threads) (hslice : slice < 4)
    (hseg : 2 ≤ segments)
    (ho : ∀ j, startIdx n slice ≤ j → j < segments →
      o ≠ lane * lanes + slice * segments + j) :
    (processSegment G wr mode time memory threads lanes segments n slice lane B).getD
        o zeroBlk = B.getD o zeroBlk := by
  have hstart : startIdx n slice ≤ segments := by
    unfold startIdx
    split <;> omega
  obtain ⟨hbase, hfit⟩ := segBase_eq lanes segments threads memory lane slice
    (startIdx n slice) hlanes hmem hW hlane hslice hstart
  simp only [processSegment, hbase]
  apply fillSeg_untouched G wr hwr
  · omega
  · by_cases hin : lane * lanes + slice * segments + startIdx n slice ≤ o ∧
        o < lane * lanes + slice * segments + startIdx n slice +
          (segments - startIdx n slice)
    · exfalso
      have hj := ho (o - (lane * lanes + slice * segments)) (by omega) (by omega)
      omega
    · omega

/-- During pass 0, a segment whose destinations are all still zero is
filled identically by the XOR-accumulate and the overwrite disciplines. -/
theorem processSegment_equiv (G : Blk → Blk → Blk)
    (hG : ∀ x y, (G x y).length = blockLength)
    (mode time memory threads lanes segments n slice lane : Nat) (B : List Blk)
    (hlanes : lanes = 4 * segments) (hmem : memory = threads * lanes)
    (hW : memory < W32) (hlane : lane < threads) (hslice : slice < 4)
    (hseg : 2 ≤ segments)
    (hz : ∀ j, startIdx n slice ≤ j → j < segments →
      B.getD (lane * lanes + slice * segments + j) zeroBlk = zeroBlk) :
    processSegment G wrXor mode time memory threads lanes segments n slice lane B =
      processSegment G wrOver mode time memory threads lanes segments n slice lane B := by
  have hstart : startIdx n slice ≤ segments := by
    unfold startIdx
    split <;> omega
  obtain ⟨hbase, hfit⟩ := segBase_eq lanes segments threads memory lane slice
    (startIdx n slice) hlanes hmem hW hlane hslice hstart
  simp only [processSegment, hbase]
  apply fillSeg_equiv G hG
  · omega
  · intro j hj
    have h2 : lane * lanes + slice * segments + startIdx n slice + j =
        lane * lanes + slice * segments + (startIdx n slice + j) := by omega
    rw [h2]
    exact hz (startIdx n slice + j) (by omega) (by omega)

theorem wrXor_untouched : ∀ (B : List Blk) (i : Nat) (v : Blk) (o : Nat),
    o ≠ i → (wrXor B i v).getD o zeroBlk = B.getD o zeroBlk :=
  fun B i v o h => getD_set_other B i o _ zeroBlk h

theorem wrOver_untouched : ∀ (B : List Blk) (i : Nat) (v : Blk) (o : Nat),
    o ≠ i → (wrOver B i v).getD o zeroBlk = B.getD o zeroBlk :=
  fun B i v o h => getD_set_other B i o v zeroBlk h

/-- Lane-by-lane treatment of one pass-0 slice: with every yet-unwritten
position of the slice still zero, the XOR-accumulate and overwrite runs of
the first `k` lanes agree, and entries outside those lanes' segments are
unchanged. -/
theorem fillSlice_aux (G : Blk → Blk → Blk)
    (hG : ∀ x y, (G x y).length = blockLength)
    (mode time memory threads lanes segments n slice : Nat)
    (hlanes : lanes = 4 * segments) (hmem : memory = threads * lanes)
    (hW : memory < W32) (hslice : slice < 4) (hseg : 2 ≤ segments) :
    ∀ (k : Nat), k ≤ threads → ∀ (B : List Blk),
      (∀ lane, lane < threads → ∀ j, startIdx n slice ≤ j → j < segments →
        B.getD (lane * lanes + slice * segments + j) zeroBlk = zeroBlk) →
      ((List.range k).foldl
          (fun B lane =>
            processSegment G wrXor mode time memory threads lanes segments n slice lane B) B =
        (List.range k).foldl
          (fun B lane =>
            processSegment G wrOver mode time memory threads lanes segments n slice lane B) B) ∧
      (∀ o,
        (∀ lane, lane < k → ∀ j, startIdx n slice ≤ j → j < segments →
          o ≠ lane * lanes + slice * segments + j) →
        ((List.range k).foldl
            (fun B lane =>
              processSegment G wrXor mode time memory threads lanes segments n slice lane B) B).getD
            o zeroBlk = B.getD o zeroBlk) := by
  intro k
  induction k with
  | zero =>
    intro _ B hz
    exact ⟨rfl, fun o _ => rfl⟩
  | succ k ih =>
    intro hk B hz
    obtain ⟨ih1, ih2⟩ := ih (by omega) B hz
    rw [List.range_succ, List.foldl_append, List.foldl_append]
    simp only [List.foldl_cons, List.foldl_nil]
    have hzk : ∀ j, startIdx n slice ≤ j → j < segments →
        ((List.range k).foldl
            (fun B lane =>
              processSegment G wrXor mode time memory threads lanes segments n slice lane B) B).getD
          (k * lanes + slice * segments + j) zeroBlk = zeroBlk := by
      intro j hj1 hj2
      rw [ih2 _ (fun lane hlane j2 hj12 hj22 =>
        pos_ne lanes segments k lane slice slice j j2 hlanes (by omega) hslice hslice
          hj2 hj22 (fun hcon => by omega))]
      exact hz k (by omega) j hj1 hj2
    constructor
    · rw [← ih1]
      exact processSegment_equiv G hG mode time memory threads lanes segments n slice k
        _ hlanes hmem hW (by omega) hslice hseg hzk
    · intro o ho
      rw [processSegment_untouched G wrXor wrXor_untouched mode time memory threads
        lanes segments n slice k _ o hlanes hmem hW (by omega) hslice hseg
        (fun j hj1 hj2 => ho k (by omega) j hj1 hj2)]
      exact ih2 o (fun lane hl => ho lane (by omega))

/-- Slice-by-slice treatment of pass 0: starting from a matrix whose
to-be-written positions are all zero, the XOR-accumulate and overwrite runs
of the first `m` slices agree, and entries outside those slices' regions
are unchanged. -/
theorem fillPass0_aux (G : Blk → Blk → Blk)
    (hG : ∀ x y, (G x y).length = blockLength)
    (mode time memory threads lanes segments n : Nat)
    (hlanes : lanes = 4 * segments) (hmem : memory = threads * lanes)
    (hW : memory < W32) (hseg : 2 ≤ segments) :
    ∀ (m : Nat), m ≤ 4 → ∀ (B : List Blk),
      (∀ lane, lane < threads → ∀ s, s < 4 → ∀ j, startIdx n s ≤ j → j < segments →
        B.getD (lane * lanes + s * segments + j) zeroBlk = zeroBlk) →
      ((List.range m).foldl
          (fun B slice =>
            fillSlice G wrXor mode time memory threads lanes segments n slice B) B =
        (List.range m).foldl
          (fun B slice =>
            fillSlice G wrOver mode time memory threads lanes segments n slice B) B) ∧
      (∀ o,
        (∀ lane, lane < threads → ∀ s, s < m → ∀ j, startIdx n s ≤ j → j < segments →
          o ≠ lane * lanes + s * segments + j) →
        ((List.range m).foldl
            (fun B slice =>
              fillSlice G wrXor mode time memory threads lanes segments n slice B) B).getD
            o zeroBlk = B.getD o zeroBlk) := by
  intro m
  induction m with
  | zero =>
    intro _ B hz
    exact ⟨rfl, fun o _ => rfl⟩
  | succ m ih =>
    intro hm B hz
    obtain ⟨ih1, ih2⟩ := ih (by omega) B hz
    rw [List.range_succ, List.foldl_append, List.foldl_append]
    simp only [List.foldl_cons, List.foldl_nil]
    have hzm : ∀ lane, lane < threads → ∀ j, startIdx n m ≤ j → j < segments →
        ((List.range m).foldl
            (fun B slice =>
              fillSlice G wrXor mode time memory threads lanes segments n slice B) B).getD
          (lane * lanes + m * segments + j) zeroBlk = zeroBlk := by
      intro lane hlane j hj1 hj2
      rw [ih2 _ (fun lane2 hl2 s hs j2 hj12 hj22 =>
        pos_ne lanes segments lane lane2 m s j j2 hlanes (by omega) (by omega)
          (by omega) hj2 hj22 (fun hcon => by omega))]
      exact hz lane hlane m (by omega) j hj1 hj2
    constructor
    · rw [← ih1]
      show fillSlice G wrXor mode time memory threads lanes segments n m _ =
        fillSlice G wrOver mode time memory threads lanes segments n m _
      unfold fillSlice
      exact (fillSlice_aux G hG mode time memory threads lanes segments n m
        hlanes hmem hW (by omega) hseg threads (Nat.le_refl threads) _ hzm).1
    · intro o ho
      have h1 : (fillSlice G wrXor mode time memory threads lanes segments n m
            ((List.range m).foldl
              (fun B slice =>
                fillSlice G wrXor mode time memory threads lanes segments n slice B) B)).getD
          o zeroBlk =
          ((List.range m).foldl
            (fun B slice =>
              fillSlice G wrXor mode time memory threads lanes segments n slice B) B).getD
          o zeroBlk := by
        unfold fillSlice
        exact (fillSlice_aux G hG mode time memory threads lanes segments n m
          hlanes hmem hW (by omega) hseg threads (Nat.le_refl threads) _ hzm).2 o
          (fun lane hl j hj1 hj2 => ho lane (by omega) m (by omega) j hj1 hj2)
      rw [h1]
      exact ih2 o (fun lane hl s hs => ho lane hl s (by omega))

/-- Every position of the `initBlocks` matrix outside the two seed blocks
at the head of each lane is the zero block: exactly the positions the
pass-0 schedule is about to write. -/
theorem initBlocks_zero (Hstream : List Nat → Nat → Nat) (h0 : List Nat)
    (memory threads lanes segments : Nat)
    (hlanes : lanes = 4 * segments) (hmem : memory = threads * lanes)
    (hW : memory < W32) (hseg : 2 ≤ segments)
    (hlanes_eq : memory / threads = lanes) :
    ∀ lane, lane < threads → ∀ s, s < 4 → ∀ j, startIdx 0 s ≤ j → j < segments →
      (initBlocks Hstream h0 memory threads).getD
        (lane * lanes + s * segments + j) zeroBlk = zeroBlk := by
  intro lane hlane s hs j hj1 hj2
  have hcge2 : 2 ≤ s * segments + j := by
    by_cases hs0 : s = 0
    · subst hs0
      have hst : startIdx 0 0 = 2 := rfl
      have hz0 : (0 : Nat) * segments = 0 := Nat.zero_mul segments
      omega
    · have : 1 * segments ≤ s * segments :=
        Nat.mul_le_mul_right segments (by omega)
      omega
  have hclt : s * segments + j < lanes := inner_lt lanes segments s j hlanes hs hj2
  have hlanes1 : 1 ≤ lanes := by omega
  simp only [initBlocks, hlanes_eq]
  have main : ∀ k, k ≤ threads →
      ((List.range k).foldl
          (fun B lane2 =>
            (B.set (mul32 lane2 lanes) (seedBlock Hstream h0 0 lane2)).set
              (add32 (mul32 lane2 lanes) 1) (seedBlock Hstream h0 1 lane2))
          (List.replicate memory zeroBlk)).getD
        (lane * lanes + s * segments + j) zeroBlk = zeroBlk := by
    intro k
    induction k with
    | zero =>
      intro _
      exact getD_replicate memory _ zeroBlk
    | succ k ihk =>
      intro hk
      rw [List.range_succ, List.foldl_append]
      simp only [List.foldl_cons, List.foldl_nil]
      have hkb : (k + 1) * lanes ≤ memory := by
        rw [hmem]
        exact Nat.mul_le_mul_right lanes (by omega)
      have hkb2 : k * lanes + lanes = (k + 1) * lanes := by ring
      have hmul : mul32 k lanes = k * lanes := mul32_eq_of_lt (by omega)
      have hadd : add32 (k * lanes) 1 = k * lanes + 1 :=
        add32_eq_of_lt (by omega)
      rw [hmul, hadd]
      have hne1 : lane * lanes + s * segments + j ≠ k * lanes + 1 := by
        intro h
        obtain ⟨-, hC⟩ := lane_decomp_inj lanes lane k (s * segments + j) 1
          (by omega) hclt (by omega) (by omega)
        omega
      have hne0 : lane * lanes + s * segments + j ≠ k * lanes := by
        intro h
        obtain ⟨-, hC⟩ := lane_decomp_inj lanes lane k (s * segments + j) 0
          (by omega) hclt (by omega) (by omega)
        omega
      rw [getD_set_other _ _ _ _ _ hne1, getD_set_other _ _ _ _ _ hne0]
      exact ihk (by omega)
  exact main threads (Nat.le_refl threads)

/-- C4: starting from the `initBlocks` matrix, the source's unconditional
XOR-accumulate fill (`processBlocks`) produces exactly the same matrix as
the specification's overwrite-on-pass-0, accumulate-on-later-passes
discipline (`processBlocksSpec`): during pass 0 every destination is still
the zero block when written, so the XOR write degenerates to overwrite. -/
theorem processBlocks_xor_equiv (Hstream : List Nat → Nat → Nat)
    (G : Blk → Blk → Blk) (h0 : List Nat)
    (time memory threads lanes segments mode : Nat)
    (hG : ∀ x y, (G x y).length = blockLength)
    (hlanes : lanes = 4 * segments) (hmem : memory = threads * lanes)
    (hW : memory < W32) (hseg : 2 ≤ segments) (ht : 1 ≤ threads) :
    processBlocks G (initBlocks Hstream h0 memory threads) time memory threads mode =
      processBlocksSpec G (initBlocks Hstream h0 memory threads) time memory threads mode := by
  have hlanes_eq : memory / threads = lanes := by
    rw [hmem]
    exact Nat.mul_div_cancel_left lanes (by omega)
  have hseg_eq : lanes / syncPoints = segments := by
    rw [hlanes]
    show 4 * segments / syncPoints = segments
    unfold syncPoints
    exact Nat.mul_div_cancel_left segments (by omega)
  simp only [processBlocks, processBlocksSpec, hlanes_eq, hseg_eq]
  cases time with
  | zero => rfl
  | succ t =>
    rw [List.range_succ_eq_map]
    simp only [List.foldl_cons, if_true]
    have hpass0 :
        fillPass G wrXor mode (t + 1) memory threads lanes segments 0
            (initBlocks Hstream h0 memory threads) =
          fillPass G wrOver mode (t + 1) memory
            threads lanes segments 0 (initBlocks Hstream h0 memory threads) := by
      unfold fillPass
      show (List.range syncPoints).foldl _ _ = (List.range syncPoints).foldl _ _
      unfold syncPoints
      exact (fillPass0_aux G hG mode (t + 1) memory threads lanes segments 0
        hlanes hmem hW hseg 4 (Nat.le_refl 4) _
        (initBlocks_zero Hstream h0 memory threads lanes segments hlanes hmem hW
          hseg hlanes_eq)).1
    rw [hpass0]
    apply foldl_ext
    intro x b hb
    rcases List.mem_map.mp hb with ⟨c, -, rfl⟩
    rw [if_neg (Nat.succ_ne_zero c)]

/-- Witness for `processBlocks_xor_equiv` at a concrete input. -/
theorem processBlocks_xor_equiv_witness :
    processBlocks (fun _ _ => List.replicate 128 1)
        (initBlocks (fun _ _ => 0) [] 8 1) 1 8 1 argon3d =
      processBlocksSpec (fun _ _ => List.replicate 128 1)
        (initBlocks (fun _ _ => 0) [] 8 1) 1 8 1 argon3d :=
  processBlocks_xor_equiv (fun _ _ => 0) (fun _ _ => List.replicate 128 1) [] 1 8 1 8 2
    argon3d (fun _ _ => by simp [blockLength]) (by decide) (by decide) (by decide)
    (by decide) (by decide)

end Argon3
